import Mathlib

/-!
Shallow embedding of the `here` command-line tool (Rust sources
`src/main.rs`, `src/fetch.rs`).  Paths and all other strings are
modelled as `List Char`; separators are modelled with the `'/'`
character.  Filesystem queries, the clipboard, the `where` child
process and the interactive prompt are modelled as an explicit
environment record, and the observable actions of one invocation are
collected as a list of effects.
-/

namespace Here

/-! ## Path components (model of `std::path` parsing and rendering) -/

/-- Model of `std::path::Component` (the `Prefix` variant, which does
not occur in the claims, is not modelled). -/
inductive Component where
  | rootDir
  | curDir
  | parentDir
  | normal (name : List Char)
deriving DecidableEq, Repr

/-- Classification of one non-empty path segment, as
`std::path` does when iterating components. -/
def segToComp (seg : List Char) : Component :=
  if seg = ['.'] then Component.curDir
  else if seg = ['.', '.'] then Component.parentDir
  else Component.normal seg

/-- Model of `Path::components`: split the textual path on the
separator, drop empty segments, and drop `.` segments except a
leading one of a relative path (as `std::path` documents). -/
def parseComponents (s : List Char) : List Component :=
  let segs := (s.splitOn '/').filter (fun seg => seg ≠ [])
  if s.head? = some '/' then
    Component.rootDir :: (segs.map segToComp).filter (fun c => c ≠ Component.curDir)
  else
    match segs with
    | [] => []
    | seg :: rest =>
      segToComp seg :: ((rest.map segToComp).filter (fun c => c ≠ Component.curDir))

/-- Textual form of one component in a rendered path. -/
def compSeg : Component → List Char
  | Component.rootDir => []
  | Component.curDir => ['.']
  | Component.parentDir => ['.', '.']
  | Component.normal n => n

/-- Model of collecting components back into a path and displaying
it, as `path_clean` does with `out.iter().collect::<PathBuf>()`. -/
def renderComponents : List Component → List Char
  | Component.rootDir :: rest => '/' :: List.intercalate ['/'] (rest.map compSeg)
  | comps => List.intercalate ['/'] (comps.map compSeg)

/-- Model of `Path::parent` (`main.rs` line 290): all components but
the last; `none` models the `None` case (empty or root-only path),
on which `main` would panic through `.expect`. -/
def parentPath (p : List Char) : Option (List Char) :=
  let comps := parseComponents p
  if comps = [] ∨ comps = [Component.rootDir] then none
  else some (renderComponents comps.dropLast)

/-- Model of `PathBuf::join` (`main.rs` line 252): an absolute
segment replaces the base path, otherwise the segment is appended
after a separator. -/
def pathJoin (base seg : List Char) : List Char :=
  if seg.head? = some '/' then seg
  else if base = [] ∨ base.getLast? = some '/' then base ++ seg
  else base ++ '/' :: seg

/-! ## The `path_clean` crate (`path.clean()`, `main.rs` line 256) -/

/-- Core loop of `path_clean::clean`: iterate over the components,
keeping an output stack.  The accumulator is kept reversed, so that
its head is the last element of the `Vec` in the Rust source:
`CurDir` is dropped; `ParentDir` is dropped after a root, pops a
normal component, and is pushed otherwise; everything else is
pushed. -/
def cleanCore : List Component → List Component → List Component
  | [], stack => stack.reverse
  | Component.curDir :: rest, stack => cleanCore rest stack
  | Component.parentDir :: rest, stack =>
    match stack with
    | Component.rootDir :: _ => cleanCore rest stack
    | Component.normal _ :: stackTail => cleanCore rest stackTail
    | _ => cleanCore rest (Component.parentDir :: stack)
  | c :: rest, stack => cleanCore rest (c :: stack)

/-- Component level result of `path_clean::clean`: the core loop,
with the empty result replaced by `.` . -/
def cleanComponents (comps : List Component) : List Component :=
  match cleanCore comps [] with
  | [] => [Component.curDir]
  | out => out

/-- Model of `path.clean()` on the textual path: parse the
components, run the stack loop, render the result. -/
def clean (s : List Char) : List Char :=
  renderComponents (cleanComponents (parseComponents s))

/-! ## Display styling (`main.rs` lines 296-310) -/

/-- Model of `visual.replace("\\", "/")`: the single-character
pattern makes the replacement a character map. -/
def posixReplace (v : List Char) : List Char :=
  v.map (fun c => if c = '\\' then '/' else c)

/-- Model of `visual.replace("/", "\\")`. -/
def noPosixReplace (v : List Char) : List Char :=
  v.map (fun c => if c = '/' then '\\' else c)

/-- Model of `format!("\"{}\"", visual)`: wrap in one pair of double
quotes. -/
def wrapQuotes (v : List Char) : List Char :=
  '\"' :: v ++ ['\"']

/-- Model of `visual.replace("\\", "\\\\")`: each single backslash
becomes two consecutive backslashes. -/
def escapeChars (v : List Char) : List Char :=
  v.flatMap (fun c => if c = '\\' then ['\\', '\\'] else [c])

/-- The command-line flags of `Args` in `main.rs` (the shell value of
`--completions` is abstracted to whether it was given). -/
structure Args where
  pathSegmentOrProgramSearch : Option (List Char)
  folderComponent : Bool
  whereSearch : Bool
  changeDirectory : Bool
  escapeBackslash : Bool
  wrapQuote : Bool
  resolveSymlink : Bool
  noCopy : Bool
  noColor : Bool
  posixStyle : Bool
  noPosixStyle : Bool
  selectFirstOption : Bool
  generateCompletions : Bool
  generateMarkdown : Bool
deriving DecidableEq, Repr

/-- Separator styling step (`main.rs` lines 298-302): exactly one of
the three branches applies. -/
def styleStep (args : Args) (v : List Char) : List Char :=
  if args.posixStyle then posixReplace v
  else if args.noPosixStyle then noPosixReplace v
  else v

/-- Quoting step (`main.rs` lines 304-306). -/
def quoteStep (args : Args) (v : List Char) : List Char :=
  if args.wrapQuote then wrapQuotes v else v

/-- Backslash-escaping step (`main.rs` lines 308-310). -/
def escapeStep (args : Args) (v : List Char) : List Char :=
  if args.escapeBackslash then escapeChars v else v

/-- The full styling chain applied to the display text, in the fixed
source order: separator styling, then quoting, then escaping. -/
def applyVisual (args : Args) (v : List Char) : List Char :=
  escapeStep args (quoteStep args (styleStep args v))

/-! ## Effects and environment -/

/-- One observable action of an invocation, in order of occurrence. -/
inductive Effect where
  | printHelp
  | invokeWhere (term : List Char)
  | promptShown
  | errorNotFound (term : List Char)
  | errorArgRequired
  | warnNotSymlink (p : List Char)
  | warnNotExist (p : List Char)
  | clipboardSet (text : List Char)
  | echo (text : List Char)
  | typeText (text : List Char)
  | pressEnter
deriving DecidableEq, Repr

/-- Whether an effect is a keystroke-injection event (the `enigo`
sink). -/
def Effect.isKey : Effect → Bool
  | Effect.typeText _ => true
  | Effect.pressEnter => true
  | _ => false

/-- Whether an effect is one of the three output sinks (clipboard,
terminal echo, keystroke injection). -/
def Effect.isSink : Effect → Bool
  | Effect.clipboardSet _ => true
  | Effect.echo _ => true
  | Effect.typeText _ => true
  | Effect.pressEnter => true
  | _ => false

/-- Result of the interactive `inquire::Select` prompt:
a chosen answer, a user skip, or a prompt error. -/
inductive PromptResult where
  | chosen (answer : List Char)
  | skipped
  | errored
deriving DecidableEq, Repr

/-- Outcome of the search resolver, and of the resolution phase of
`main`: a path string, an `ExitCode::FAILURE` return, or a panic
(`todo!` / a failed `expect`). -/
inductive FetchResult where
  | ok (path : List Char)
  | fail
  | panicked
deriving DecidableEq, Repr

/-- How one invocation terminates. -/
inductive ExitKind where
  | success
  | failure
  | panicked
deriving DecidableEq, Repr

/-- The external world of one invocation: platform, working
directory, captured `where` output, prompt behaviour, filesystem
query answers, and clipboard availability.  `fsExists` models
`Path::exists`, which follows symlinks; `isSymlink`, `readLink` and
`isFile` model the corresponding `std::fs` queries; `clipboardOk`
models whether `cli_clipboard::set_contents` succeeds. -/
structure Env where
  onWindows : Bool
  cwd : List Char
  whereStdout : List Char
  promptResult : PromptResult
  fsExists : List Char → Bool
  isSymlink : List Char → Bool
  readLink : List Char → List Char
  isFile : List Char → Bool
  clipboardOk : Bool

/-- Model of Rust `str::trim`: drop whitespace from both ends. -/
def trimChars (l : List Char) : List Char :=
  ((l.dropWhile Char.isWhitespace).reverse.dropWhile Char.isWhitespace).reverse

/-- The `text` value computed in `fetch.rs` line 19-23: captured
standard output of `where`, trimmed, with carriage returns removed
(replacing `"\r"` with the empty string deletes every `'\r'`). -/
def whereText (env : Env) : List Char :=
  (trimChars env.whereStdout).filter (fun c => c ≠ '\r')

/-- Model of `fetch::string_path_from_search`: on Windows, run
`where` and capture its output; with a newline in the text, either
take the first split piece (`--select-first`) or prompt; otherwise
return the whole text.  The non-Windows branch is the `todo!()`
panic.  Returns the effects performed together with the result. -/
def string_path_from_search (program : List Char) (selectFirstOption : Bool)
    (env : Env) : List Effect × FetchResult :=
  if env.onWindows then
    let text := whereText env
    if '\n' ∈ text then
      let options := text.splitOn '\n'
      if selectFirstOption then
        ([Effect.invokeWhere program], FetchResult.ok (options.headD []))
      else
        match env.promptResult with
        | PromptResult.chosen answer =>
          ([Effect.invokeWhere program, Effect.promptShown], FetchResult.ok answer)
        | PromptResult.skipped =>
          ([Effect.invokeWhere program, Effect.promptShown], FetchResult.fail)
        | PromptResult.errored =>
          ([Effect.invokeWhere program, Effect.promptShown], FetchResult.fail)
    else
      ([Effect.invokeWhere program], FetchResult.ok text)
  else
    ([], FetchResult.panicked)

/-! ## The `main` pipeline (`main.rs` lines 188-333) -/

/-- Resolution phase of `main` (lines 211-254): search mode calls
`string_path_from_search` and treats the empty string as "not
found"; a missing positional argument with `-w` is the "argument
required" error; otherwise the positional segment (default `"."`) is
joined onto the current working directory. -/
def resolvePhase (args : Args) (env : Env) : List Effect × FetchResult :=
  if args.whereSearch then
    match args.pathSegmentOrProgramSearch with
    | some searchName =>
      match string_path_from_search searchName args.selectFirstOption env with
      | (effs, FetchResult.ok stringPath) =>
        if stringPath = [] then
          (effs ++ [Effect.errorNotFound searchName], FetchResult.fail)
        else
          (effs, FetchResult.ok stringPath)
      | (effs, r) => (effs, r)
    | none => ([Effect.errorArgRequired], FetchResult.fail)
  else
    let segment := args.pathSegmentOrProgramSearch.getD ['.']
    ([], FetchResult.ok (pathJoin env.cwd segment))

/-- Symlink-resolution step (`main.rs` lines 258-286): only when
`-r` (`--resolve-symlink`) is set; the existence test runs first, so a
path that does not exist (including a dangling symlink, since
`Path::exists` follows symlinks) only produces the "does not exist"
warning; an existing non-symlink produces the "not a symlink"
warning; an existing symlink is replaced by its link target. -/
def symlinkStep (args : Args) (env : Env) (p : List Char) : List Char × List Effect :=
  if args.resolveSymlink then
    if env.fsExists p then
      if env.isSymlink p then (env.readLink p, [])
      else (p, [Effect.warnNotSymlink p])
    else (p, [Effect.warnNotExist p])
  else (p, [])

/-- Folder-reduction step (`main.rs` lines 288-293): when
`-f` (`--folder`) is set and the path is a regular file, take its
parent; `none` models the panic of the `.expect` when the parent
does not exist. -/
def folderStep (args : Args) (env : Env) (p : List Char) : Option (List Char) :=
  if args.folderComponent && env.isFile p then parentPath p else some p

/-- The keystroke payload of `main.rs` lines 325-326:
`cd` followed by the filesystem path in double quotes. -/
def cdCommand (p : List Char) : List Char :=
  ['c', 'd', ' ', '\"'] ++ p ++ ['\"']

/-- Output dispatch (`main.rs` lines 312-331): clipboard write
unless `-n` (`--no-copy`) (a clipboard failure is an `.expect` panic),
then the terminal echo, then — with `-d` (`--change-directory`) — the
typed `cd` command over the filesystem path and one enter press. -/
def finalActions (args : Args) (env : Env) (path visual : List Char) :
    List Effect × ExitKind :=
  if !args.noCopy && !env.clipboardOk then ([], ExitKind.panicked)
  else
    ((if args.noCopy then [] else [Effect.clipboardSet visual]) ++
      [Effect.echo visual] ++
      (if args.changeDirectory then
        [Effect.typeText (cdCommand path), Effect.pressEnter]
      else []),
    ExitKind.success)

/-- The result of one invocation: ordered effects and exit kind. -/
structure RunResult where
  effects : List Effect
  exit : ExitKind
deriving DecidableEq, Repr

/-- Model of `main`: early exit for `--completions` / `--markdown`,
then the resolution phase, `path.clean()`, the symlink step, the
folder step, the styling chain on the display text, and the output
dispatch. -/
def main (args : Args) (env : Env) : RunResult :=
  if args.generateCompletions || args.generateMarkdown then
    { effects := [Effect.printHelp], exit := ExitKind.success }
  else
    match resolvePhase args env with
    | (effs, FetchResult.fail) => { effects := effs, exit := ExitKind.failure }
    | (effs, FetchResult.panicked) => { effects := effs, exit := ExitKind.panicked }
    | (effs, FetchResult.ok p0) =>
      let p1 := clean p0
      let step := symlinkStep args env p1
      match folderStep args env step.1 with
      | none => { effects := effs ++ step.2, exit := ExitKind.panicked }
      | some p3 =>
        let visual := applyVisual args p3
        let fin := finalActions args env p3 visual
        { effects := effs ++ step.2 ++ fin.1, exit := fin.2 }

/-! ## Concrete instances used by witnesses and counterexamples -/

/-- All flags off, no positional argument. -/
def argsBase : Args :=
  { pathSegmentOrProgramSearch := none
    folderComponent := false
    whereSearch := false
    changeDirectory := false
    escapeBackslash := false
    wrapQuote := false
    resolveSymlink := false
    noCopy := false
    noColor := false
    posixStyle := false
    noPosixStyle := false
    selectFirstOption := false
    generateCompletions := false
    generateMarkdown := false }

/-- A benign environment: Windows, a fixed working directory, empty
search output, nothing on the filesystem, working clipboard. -/
def envBase : Env :=
  { onWindows := true
    cwd := ['/', 'h', 'o', 'm', 'e']
    whereStdout := []
    promptResult := PromptResult.skipped
    fsExists := fun _ => false
    isSymlink := fun _ => false
    readLink := fun p => p
    isFile := fun _ => false
    clipboardOk := true }

/-! ## General lemmas -/

/-- Splitting a list that contains the separator yields at least two
pieces. -/
theorem two_le_length_splitOn (sep : Char) (l : List Char) (h : sep ∈ l) :
    2 ≤ (l.splitOn sep).length := by
  induction l with
  | nil => cases h
  | cons c rest ih =>
    rw [List.splitOn, List.splitOnP_cons]
    by_cases hc : c = sep
    · have hne := List.splitOnP_ne_nil (fun x => x == sep) rest
      have hlen : 1 ≤ (rest.splitOnP (fun x => x == sep)).length :=
        List.length_pos.mpr hne
      simp only [hc, beq_self_eq_true, if_pos, List.length_cons]
      omega
    · have hmem : sep ∈ rest := by
        rcases List.mem_cons.mp h with h1 | h1
        · exact absurd h1.symm hc
        · exact h1
      have := ih hmem
      rw [List.splitOn] at this
      simp only [beq_iff_eq, hc, if_false, List.length_modifyHead]
      omega

/-- The warnings of the symlink step are never output-sink effects. -/
theorem symlinkStep_snd_all_not_sink (args : Args) (env : Env) (p : List Char) :
    ((symlinkStep args env p).2).all (fun e => !e.isSink) = true := by
  by_cases h1 : args.resolveSymlink <;> by_cases h2 : env.fsExists p <;>
    by_cases h3 : env.isSymlink p <;> simp [symlinkStep, h1, h2, h3, Effect.isSink]

/-- The warnings of the symlink step contain no keystroke effects. -/
theorem symlinkStep_snd_filter_isKey (args : Args) (env : Env) (p : List Char) :
    ((symlinkStep args env p).2).filter Effect.isKey = [] := by
  by_cases h1 : args.resolveSymlink <;> by_cases h2 : env.fsExists p <;>
    by_cases h3 : env.isSymlink p <;> simp [symlinkStep, h1, h2, h3, Effect.isKey]

/-! ## Claim C10 -/

/-- Claim C10: in the multi-candidate branch of the search resolver,
whenever the captured text contains a newline, splitting on newlines
yields at least two pieces, so taking element 0 under
`select_first_option` is always defined and `options[0]` never
panics. -/
theorem C10_first_index_defined (env : Env) (h : '\n' ∈ whereText env) :
    2 ≤ ((whereText env).splitOn '\n').length :=
  two_le_length_splitOn '\n' (whereText env) h

/-- An environment whose `where` output holds two candidate lines. -/
def envMulti : Env :=
  { envBase with
    whereStdout := ("C:\\a\\x.exe" ++ "\n" ++ "C:\\b\\x.exe").data }

theorem C10_first_index_defined_witness :
    '\n' ∈ whereText envMulti ∧ 2 ≤ ((whereText envMulti).splitOn '\n').length :=
  ⟨by decide, C10_first_index_defined envMulti (by decide)⟩

/-! ## Claim C9 -/

/-- Claim C9: with `resolve_symlink` set, a path that fails the
existence test (as a dangling symlink does, since `Path::exists`
follows symlinks) only gets the non-fatal "does not exist" warning
and stays unchanged, even when it is a symlink: it is never replaced
by its link target. -/
theorem C9_dangling_symlink_unchanged (args : Args) (env : Env) (p : List Char)
    (hr : args.resolveSymlink = true) (hex : env.fsExists p = false)
    ( _hsym : env.isSymlink p = true) :
    symlinkStep args env p = (p, [Effect.warnNotExist p]) := by
  simp [symlinkStep, hr, hex]

/-- Flags with only `resolve_symlink` set. -/
def argsSymlink : Args := { argsBase with resolveSymlink := true }

/-- An environment where every path is a symlink but nothing exists:
every path behaves as a dangling symlink. -/
def envDangling : Env := { envBase with isSymlink := fun _ => true }

theorem C9_dangling_symlink_unchanged_witness :
    argsSymlink.resolveSymlink = true ∧ envDangling.fsExists ['a'] = false ∧
    envDangling.isSymlink ['a'] = true ∧
    symlinkStep argsSymlink envDangling ['a'] = (['a'], [Effect.warnNotExist ['a']]) :=
  ⟨rfl, rfl, rfl, C9_dangling_symlink_unchanged argsSymlink envDangling ['a'] rfl rfl rfl⟩

/-! ## Claim C4 -/

/-- Flags with `wrap_quote` and `escape_backslash` both set. -/
def argsQuoteEscape : Args := { argsBase with wrapQuote := true, escapeBackslash := true }

/-- Claim C4: with `wrap_quote` and `escape_backslash` both set, the
text `C:\Users\me` is first wrapped in one pair of double quotes and
then every backslash is doubled, giving `"C:\\Users\\me"`; the two
quote characters remain single and untransformed. -/
theorem C4_quote_then_escape :
    applyVisual argsQuoteEscape ("C:\\Users\\me").data = ("\"C:\\\\Users\\\\me\"").data ∧
    (applyVisual argsQuoteEscape ("C:\\Users\\me").data).count '\"' = 2 := by
  decide

/-! ## Claim C2 -/

/-- Search-mode flags with the search term `"."`. -/
def argsDotSearch : Args :=
  { argsBase with whereSearch := true, pathSegmentOrProgramSearch := some ['.'] }

/-- An environment whose `where` output is one candidate line. -/
def envWhereSingle : Env := { envBase with whereStdout := ("C:\\x.exe").data }

/-- Claim C2 counterexample: a ProgramSearch invocation with search
term `"."` does not fail fatally before the locate facility runs: the
`where` subprocess is invoked with `"."` and the run succeeds. -/
theorem C2_counterexample :
    Effect.invokeWhere ['.'] ∈ (main argsDotSearch envWhereSingle).effects ∧
    (main argsDotSearch envWhereSingle).exit = ExitKind.success := by
  decide

/-- Claim C2 amended: only a ProgramSearch invocation whose search
term is absent fails fatally, with the "argument required" error,
before the locate facility is invoked and with no other side
effects; empty or `"."` terms are passed to the locate facility. -/
theorem C2_missing_term_fails (args : Args) (env : Env)
    (hg1 : args.generateCompletions = false) (hg2 : args.generateMarkdown = false)
    (hw : args.whereSearch = true) (hn : args.pathSegmentOrProgramSearch = none) :
    main args env = { effects := [Effect.errorArgRequired], exit := ExitKind.failure } := by
  simp [main, hg1, hg2, resolvePhase, hw, hn]

/-- Search-mode flags with no positional argument. -/
def argsSearchNoTerm : Args := { argsBase with whereSearch := true }

theorem C2_missing_term_fails_witness :
    argsSearchNoTerm.generateCompletions = false ∧
    argsSearchNoTerm.generateMarkdown = false ∧
    argsSearchNoTerm.whereSearch = true ∧
    argsSearchNoTerm.pathSegmentOrProgramSearch = none ∧
    main argsSearchNoTerm envBase =
      { effects := [Effect.errorArgRequired], exit := ExitKind.failure } :=
  ⟨rfl, rfl, rfl, rfl, C2_missing_term_fails argsSearchNoTerm envBase rfl rfl rfl rfl⟩

/-! ## Claim C1 -/

/-- Flags with `change_directory` set and copying enabled. -/
def argsCdCopy : Args := { argsBase with changeDirectory := true }

/-- An environment whose clipboard write fails. -/
def envClipboardBroken : Env := { envBase with clipboardOk := false }

/-- Claim C1 counterexample: when the clipboard write fails and
`no_copy` is not set, the run panics with no effects at all: the
terminal echo and the keystroke sink do not execute, so execution
does not continue past the failure. -/
theorem C1_counterexample :
    main argsCdCopy envClipboardBroken = { effects := [], exit := ExitKind.panicked } := by
  decide

/-- Claim C1 amended: if the clipboard write fails (clipboard
unavailable) and `no_copy` is not set, the program aborts fatally at
the clipboard step (a failed `expect`): neither the terminal echo
sink nor the keystroke-injection sink executes afterwards. -/
theorem C1_clipboard_failure_aborts (args : Args) (env : Env) (p3 : List Char)
    (hg1 : args.generateCompletions = false) (hg2 : args.generateMarkdown = false)
    (hw : args.whereSearch = false)
    (hc : args.noCopy = false) (hcb : env.clipboardOk = false)
    (hf : folderStep args env
        ((symlinkStep args env
          (clean (pathJoin env.cwd (args.pathSegmentOrProgramSearch.getD ['.'])))).1) =
      some p3) :
    (main args env).exit = ExitKind.panicked ∧
    (main args env).effects.all (fun e => !e.isSink) = true := by
  have hres : resolvePhase args env =
      ([], FetchResult.ok (pathJoin env.cwd (args.pathSegmentOrProgramSearch.getD ['.']))) := by
    simp [resolvePhase, hw]
  have hfin : finalActions args env p3 (applyVisual args p3) = ([], ExitKind.panicked) := by
    simp [finalActions, hc, hcb]
  simp only [main, hg1, hg2, Bool.or_self, if_neg, Bool.false_eq_true, not_false_iff,
    hres, hf, hfin]
  constructor
  · trivial
  · simp [List.all_append, symlinkStep_snd_all_not_sink]

theorem C1_clipboard_failure_aborts_witness :
    argsCdCopy.generateCompletions = false ∧
    argsCdCopy.generateMarkdown = false ∧
    argsCdCopy.whereSearch = false ∧
    argsCdCopy.noCopy = false ∧
    envClipboardBroken.clipboardOk = false ∧
    folderStep argsCdCopy envClipboardBroken
        ((symlinkStep argsCdCopy envClipboardBroken
          (clean (pathJoin envClipboardBroken.cwd
            (argsCdCopy.pathSegmentOrProgramSearch.getD ['.'])))).1) =
      some (clean (pathJoin envClipboardBroken.cwd ['.'])) ∧
    (main argsCdCopy envClipboardBroken).exit = ExitKind.panicked ∧
    (main argsCdCopy envClipboardBroken).effects.all (fun e => !e.isSink) = true := by
  refine ⟨rfl, rfl, rfl, rfl, rfl, by decide, ?_, ?_⟩
  · exact (C1_clipboard_failure_aborts argsCdCopy envClipboardBroken
      (clean (pathJoin envClipboardBroken.cwd ['.'])) rfl rfl rfl rfl rfl (by decide)).1
  · exact (C1_clipboard_failure_aborts argsCdCopy envClipboardBroken
      (clean (pathJoin envClipboardBroken.cwd ['.'])) rfl rfl rfl rfl rfl (by decide)).2

/-! ## Claim C3 -/

/-- Escaping adds one character per backslash. -/
theorem length_escapeChars (v : List Char) :
    (escapeChars v).length = v.length + v.count '\\' := by
  induction v with
  | nil => rfl
  | cons c rest ih =>
    have hstep : escapeChars (c :: rest)
        = (if c = '\\' then ['\\', '\\'] else [c]) ++ escapeChars rest := rfl
    rw [hstep, List.length_append, ih, List.length_cons, List.count_cons]
    by_cases hc : c = '\\' <;> simp [hc] <;> omega

/-- Forward-to-backslash styling turns every forward slash into an
extra backslash. -/
theorem count_backslash_noPosixReplace (v : List Char) :
    (noPosixReplace v).count '\\' = v.count '\\' + v.count '/' := by
  induction v with
  | nil => rfl
  | cons c rest ih =>
    have hstep : noPosixReplace (c :: rest)
        = (if c = '/' then '\\' else c) :: noPosixReplace rest := rfl
    rw [hstep, List.count_cons, List.count_cons, List.count_cons, ih]
    by_cases hc : c = '/'
    · simp [hc]; omega
    · by_cases hb : c = '\\' <;> simp [hc, hb] <;> omega

/-- Flags with `no_posix_style` and `escape_backslash` both set. -/
def argsNoPosixEscape : Args :=
  { argsBase with noPosixStyle := true, escapeBackslash := true }

/-- Claim C3: with `no_posix_style` and `escape_backslash` both set,
separator styling runs before backslash escaping: the result is
escaping applied to the styled text (so `a/b` becomes `a\b` and then
`a\\b`), and on any text containing a forward slash it differs from
applying escaping first and styling afterwards. -/
theorem C3_style_before_escape (v : List Char) (h : '/' ∈ v) :
    applyVisual argsNoPosixEscape v = escapeChars (noPosixReplace v) ∧
    applyVisual argsNoPosixEscape v ≠ noPosixReplace (escapeChars v) ∧
    applyVisual argsNoPosixEscape ("a/b").data = ("a\\\\b").data := by
  have h1 : applyVisual argsNoPosixEscape v = escapeChars (noPosixReplace v) := by
    simp [applyVisual, styleStep, quoteStep, escapeStep, argsNoPosixEscape, argsBase]
  refine ⟨h1, ?_, by decide⟩
  rw [h1]
  intro heq
  have hlen := congrArg List.length heq
  have hmap : (noPosixReplace (escapeChars v)).length = (escapeChars v).length := by
    simp [noPosixReplace]
  rw [length_escapeChars, hmap, length_escapeChars,
    count_backslash_noPosixReplace] at hlen
  have hlen2 : (noPosixReplace v).length = v.length := by simp [noPosixReplace]
  have hpos : 0 < v.count '/' := List.count_pos_iff.mpr h
  omega

theorem C3_style_before_escape_witness :
    '/' ∈ ("a/b").data ∧
    (applyVisual argsNoPosixEscape ("a/b").data =
        escapeChars (noPosixReplace ("a/b").data) ∧
      applyVisual argsNoPosixEscape ("a/b").data ≠
        noPosixReplace (escapeChars ("a/b").data) ∧
      applyVisual argsNoPosixEscape ("a/b").data = ("a\\\\b").data) :=
  ⟨by decide, C3_style_before_escape ("a/b").data (by decide)⟩

/-! ## Claim C5 -/

/-- Claim C5: with more than one candidate line and
`select_first_option` set, the first line is taken verbatim and the
interactive prompt never runs; with at most one candidate the flag
has no effect on the search result; and outside ProgramSearch mode
the flag has no effect on the whole run. -/
theorem C5_select_first (program : List Char) (env envSingle envAny : Env) (args : Args)
    (hwin : env.onWindows = true) (hmulti : '\n' ∈ whereText env)
    (hwin2 : envSingle.onWindows = true) (hsingle : '\n' ∉ whereText envSingle)
    (hmode : args.whereSearch = false) :
    string_path_from_search program true env =
      ([Effect.invokeWhere program],
        FetchResult.ok (((whereText env).splitOn '\n').headD [])) ∧
    string_path_from_search program true envSingle =
      string_path_from_search program false envSingle ∧
    main { args with selectFirstOption := true } envAny =
      main { args with selectFirstOption := false } envAny := by
  refine ⟨?_, ?_, ?_⟩
  · simp [string_path_from_search, hwin, hmulti]
  · simp [string_path_from_search, hwin2, hsingle]
  · obtain ⟨seg, fc, ws, cd, eb, wq, rs, nc, ncol, ps, nps, sfo, gc, gm⟩ := args
    change ws = false at hmode
    subst hmode
    cases gc <;> cases gm <;>
      simp [main, resolvePhase, symlinkStep, folderStep, finalActions,
        applyVisual, styleStep, quoteStep, escapeStep, string_path_from_search]

theorem C5_select_first_witness :
    envMulti.onWindows = true ∧ '\n' ∈ whereText envMulti ∧
    envWhereSingle.onWindows = true ∧ '\n' ∉ whereText envWhereSingle ∧
    argsBase.whereSearch = false ∧
    (string_path_from_search ['x'] true envMulti =
        ([Effect.invokeWhere ['x']],
          FetchResult.ok (((whereText envMulti).splitOn '\n').headD [])) ∧
      string_path_from_search ['x'] true envWhereSingle =
        string_path_from_search ['x'] false envWhereSingle ∧
      main { argsBase with selectFirstOption := true } envBase =
        main { argsBase with selectFirstOption := false } envBase) :=
  ⟨rfl, by decide, rfl, by decide, rfl,
    C5_select_first ['x'] envMulti envWhereSingle envBase argsBase rfl (by decide)
      rfl (by decide) rfl⟩

/-! ## Claim C6 -/

/-- Claim C6: the folder-reduction step is the identity, never an
error, on every path the filesystem does not classify as a regular
file (directories and missing paths); on a regular file it replaces
the path with its parent, stripping exactly the last component. -/
theorem C6_folder_reduction (args : Args) (env : Env) (p : List Char)
    (cs : List Component) (n : List Char)
    (hflag : args.folderComponent = true) :
    (env.isFile p = false → folderStep args env p = some p) ∧
    (env.isFile p = true → parseComponents p = cs ++ [Component.normal n] →
      folderStep args env p = some (renderComponents cs)) := by
  constructor
  · intro hfile
    simp [folderStep, hflag, hfile]
  · intro hfile hparse
    have hne : cs ++ [Component.normal n] ≠ [] := by simp
    have hnr : cs ++ [Component.normal n] ≠ [Component.rootDir] := by
      rcases cs with _ | ⟨a, t⟩ <;> simp
    simp [folderStep, hflag, hfile, parentPath, hparse, hne, hnr]

/-- Flags with only `folder_component` set. -/
def argsFolder : Args := { argsBase with folderComponent := true }

/-- An environment where every path is a regular file. -/
def envAllFiles : Env := { envBase with isFile := fun _ => true }

theorem C6_folder_reduction_witness :
    argsFolder.folderComponent = true ∧
    ((envAllFiles.isFile ("a/b").data = false →
        folderStep argsFolder envAllFiles ("a/b").data = some ("a/b").data) ∧
      (envAllFiles.isFile ("a/b").data = true →
        parseComponents ("a/b").data =
          [Component.normal ['a']] ++ [Component.normal ['b']] →
        folderStep argsFolder envAllFiles ("a/b").data =
          some (renderComponents [Component.normal ['a']]))) :=
  ⟨rfl, C6_folder_reduction argsFolder envAllFiles ("a/b").data
    [Component.normal ['a']] ['b'] rfl⟩

/-! ## Claim C8 -/

/-- In segment mode, when the run reaches the sinks without a
clipboard panic, the keystroke effects are exactly the typed `cd`
command over the filesystem path followed by one enter press. -/
theorem main_filter_isKey (args : Args) (env : Env) (p3 : List Char)
    (hg1 : args.generateCompletions = false) (hg2 : args.generateMarkdown = false)
    (hw : args.whereSearch = false) (hd : args.changeDirectory = true)
    (hok : args.noCopy = true ∨ env.clipboardOk = true)
    (hf : folderStep args env
        ((symlinkStep args env
          (clean (pathJoin env.cwd (args.pathSegmentOrProgramSearch.getD ['.'])))).1) =
      some p3) :
    (main args env).effects.filter Effect.isKey =
      [Effect.typeText (cdCommand p3), Effect.pressEnter] := by
  have hres : resolvePhase args env =
      ([], FetchResult.ok (pathJoin env.cwd (args.pathSegmentOrProgramSearch.getD ['.']))) := by
    simp [resolvePhase, hw]
  simp only [main, hg1, hg2, Bool.or_self, Bool.false_eq_true, if_neg, not_false_iff,
    hres, hf]
  rcases hok with hnc | hcb
  · simp [finalActions, hnc, hd, List.filter_append, symlinkStep_snd_filter_isKey,
      Effect.isKey]
  · by_cases hnc : args.noCopy <;>
      simp [finalActions, hnc, hcb, hd, List.filter_append,
        symlinkStep_snd_filter_isKey, Effect.isKey]

/-- Claim C8: with `change_directory` set, the keystroke payload is
the shell `cd` command quoting the filesystem path (the resolved
path after normalization, symlink resolution and folder reduction),
not the display string: it is unchanged by any combination of the
styling flags, and it is followed by exactly one enter press. -/
theorem C8_cd_payload (args : Args) (env : Env) (p3 : List Char) (b1 b2 b3 b4 b5 : Bool)
    (hg1 : args.generateCompletions = false) (hg2 : args.generateMarkdown = false)
    (hw : args.whereSearch = false) (hd : args.changeDirectory = true)
    (hok : args.noCopy = true ∨ env.clipboardOk = true)
    (hf : folderStep args env
        ((symlinkStep args env
          (clean (pathJoin env.cwd (args.pathSegmentOrProgramSearch.getD ['.'])))).1) =
      some p3) :
    (main args env).effects.filter Effect.isKey =
      [Effect.typeText (cdCommand p3), Effect.pressEnter] ∧
    cdCommand p3 = ['c', 'd', ' ', '\"'] ++ p3 ++ ['\"'] ∧
    (main { args with
            posixStyle := b1, noPosixStyle := b2, wrapQuote := b3,
            escapeBackslash := b4, noColor := b5 } env).effects.filter Effect.isKey =
      [Effect.typeText (cdCommand p3), Effect.pressEnter] := by
  refine ⟨main_filter_isKey args env p3 hg1 hg2 hw hd hok hf, rfl, ?_⟩
  exact main_filter_isKey
    { args with
      posixStyle := b1, noPosixStyle := b2, wrapQuote := b3,
      escapeBackslash := b4, noColor := b5 } env p3 hg1 hg2 hw hd hok hf

/-- Flags with `change_directory` and `no_copy` set. -/
def argsCdNoCopy : Args := { argsBase with changeDirectory := true, noCopy := true }

theorem C8_cd_payload_witness :
    argsCdNoCopy.generateCompletions = false ∧
    argsCdNoCopy.generateMarkdown = false ∧
    argsCdNoCopy.whereSearch = false ∧
    argsCdNoCopy.changeDirectory = true ∧
    (argsCdNoCopy.noCopy = true ∨ envBase.clipboardOk = true) ∧
    folderStep argsCdNoCopy envBase
        ((symlinkStep argsCdNoCopy envBase
          (clean (pathJoin envBase.cwd
            (argsCdNoCopy.pathSegmentOrProgramSearch.getD ['.'])))).1) =
      some (clean (pathJoin envBase.cwd ['.'])) ∧
    ((main argsCdNoCopy envBase).effects.filter Effect.isKey =
        [Effect.typeText (cdCommand (clean (pathJoin envBase.cwd ['.']))),
          Effect.pressEnter] ∧
      cdCommand (clean (pathJoin envBase.cwd ['.'])) =
        ['c', 'd', ' ', '\"'] ++ clean (pathJoin envBase.cwd ['.']) ++ ['\"'] ∧
      (main { argsCdNoCopy with
              posixStyle := true, noPosixStyle := false,
              wrapQuote := true, escapeBackslash := true,
              noColor := true } envBase).effects.filter Effect.isKey =
        [Effect.typeText (cdCommand (clean (pathJoin envBase.cwd ['.']))),
          Effect.pressEnter]) :=
  ⟨rfl, rfl, rfl, rfl, Or.inl rfl, by decide,
    C8_cd_payload argsCdNoCopy envBase (clean (pathJoin envBase.cwd ['.']))
      true false true true true rfl rfl rfl rfl (Or.inl rfl) (by decide)⟩

/-! ## Claim C7: idempotence of the Normalize step -/

/-- A path-segment name as it can occur in a `normal` component of a
parsed path: non-empty, not a dot segment, free of separators. -/
def goodName (n : List Char) : Prop :=
  n ≠ [] ∧ n ≠ ['.'] ∧ n ≠ ['.', '.'] ∧ '/' ∉ n

/-- A component that segment classification can produce. -/
def goodComp (c : Component) : Prop :=
  c = Component.curDir ∨ c = Component.parentDir ∨
    ∃ n, goodName n ∧ c = Component.normal n

/-- The possible shapes of a cleaned component list: the single dot,
an absolute path of plain names, or a run of parent dots followed by
plain names. -/
inductive CleanShape : List Component → Prop where
  | dot : CleanShape [Component.curDir]
  | abs (ns : List (List Char)) (h : ∀ n ∈ ns, goodName n) :
      CleanShape (Component.rootDir :: ns.map Component.normal)
  | rel (k : Nat) (ns : List (List Char)) (hne : k ≠ 0 ∨ ns ≠ [])
      (h : ∀ n ∈ ns, goodName n) :
      CleanShape (List.replicate k Component.parentDir ++ ns.map Component.normal)

/-- A piece produced by splitting on a separator never contains the
separator. -/
theorem not_mem_of_mem_splitOn (sep : Char) (l p : List Char)
    (hp : p ∈ l.splitOn sep) : sep ∉ p := by
  induction l generalizing p with
  | nil =>
    simp only [List.splitOn, List.splitOnP_nil, List.mem_singleton] at hp
    subst hp
    simp
  | cons c rest ih =>
    rw [List.splitOn, List.splitOnP_cons] at hp
    by_cases hc : c = sep
    · rw [if_pos (by simp [hc])] at hp
      rcases List.mem_cons.mp hp with rfl | hp2
      · simp
      · exact ih p (by simpa [List.splitOn] using hp2)
    · rw [if_neg (by simp [hc])] at hp
      rcases hq : rest.splitOnP (fun x => x == sep) with _ | ⟨q, qs⟩
      · exact absurd hq (List.splitOnP_ne_nil _ rest)
      · rw [hq, List.modifyHead] at hp
        rcases List.mem_cons.mp hp with rfl | hp2
        · have hqmem : sep ∉ q :=
            ih q (by simp [List.splitOn, hq])
          intro hmem
          rcases List.mem_cons.mp hmem with h1 | h1
          · exact hc h1.symm
          · exact hqmem h1
        · exact ih p (by simp [List.splitOn, hq, hp2])

/-- The filtered segments of a path are non-empty and free of
separators. -/
theorem segs_good (s : List Char) :
    ∀ seg ∈ (s.splitOn '/').filter (fun x => x ≠ []), seg ≠ [] ∧ '/' ∉ seg := by
  intro seg hseg
  obtain ⟨hmem, hne⟩ := List.mem_filter.mp hseg
  exact ⟨by simpa using hne, not_mem_of_mem_splitOn '/' s seg hmem⟩

/-- Segment classification of a non-empty separator-free segment
yields a dot component or a well-formed name. -/
theorem goodComp_segToComp (seg : List Char) (h1 : seg ≠ []) (h2 : '/' ∉ seg) :
    goodComp (segToComp seg) := by
  unfold segToComp goodComp
  by_cases e1 : seg = ['.']
  · simp [e1]
  · by_cases e2 : seg = ['.', '.']
    · simp [e1, e2]
    · exact Or.inr (Or.inr ⟨seg, ⟨h1, e1, e2, h2⟩, by simp [e1, e2]⟩)

/-- Every parsed component list is either a root followed by
classified segments, or entirely classified segments. -/
theorem parse_shape (s : List Char) :
    (∃ t, parseComponents s = Component.rootDir :: t ∧ ∀ c ∈ t, goodComp c) ∨
    (∀ c ∈ parseComponents s, goodComp c) := by
  by_cases habs : s.head? = some '/'
  · left
    refine ⟨((((s.splitOn '/').filter (fun seg => seg ≠ [])).map segToComp).filter
      (fun c => c ≠ Component.curDir)), by simp [parseComponents, habs], ?_⟩
    intro c hc
    obtain ⟨hc1, _⟩ := List.mem_filter.mp hc
    obtain ⟨seg, hseg, rfl⟩ := List.mem_map.mp hc1
    obtain ⟨g1, g2⟩ := segs_good s seg hseg
    exact goodComp_segToComp seg g1 g2
  · right
    intro c hc
    simp only [parseComponents, habs, if_false] at hc
    rcases hsegs : (s.splitOn '/').filter (fun x => x ≠ []) with _ | ⟨seg, rest⟩ <;>
      rw [hsegs] at hc
    · simp at hc
    · rcases List.mem_cons.mp hc with rfl | hc2
      · obtain ⟨g1, g2⟩ := segs_good s seg (hsegs ▸ List.mem_cons_self seg rest)
        exact goodComp_segToComp seg g1 g2
      · obtain ⟨hc3, _⟩ := List.mem_filter.mp hc2
        obtain ⟨seg2, hseg2, rfl⟩ := List.mem_map.mp hc3
        have : seg2 ∈ (s.splitOn '/').filter (fun x => x ≠ []) := by
          rw [hsegs]
          exact List.mem_cons_of_mem seg hseg2
        obtain ⟨g1, g2⟩ := segs_good s seg2 this
        exact goodComp_segToComp seg2 g1 g2

/-- Normal components are always pushed by the core loop. -/
theorem cleanCore_normals (ns : List (List Char)) (stack : List Component) :
    cleanCore (ns.map Component.normal) stack =
      stack.reverse ++ ns.map Component.normal := by
  induction ns generalizing stack with
  | nil => simp [cleanCore]
  | cons n t ih =>
    have hstep : cleanCore ((n :: t).map Component.normal) stack
        = cleanCore (t.map Component.normal) (Component.normal n :: stack) := rfl
    rw [hstep, ih]
    simp

/-- Core-loop invariant for absolute paths: over a stack of names on
a root, classified input components keep the stack in that form, so
the result is the root followed by names. -/
theorem cleanCore_abs (t : List Component) (h : ∀ c ∈ t, goodComp c) :
    ∀ ns : List (List Char), (∀ n ∈ ns, goodName n) →
      ∃ ms : List (List Char), (∀ n ∈ ms, goodName n) ∧
        cleanCore t (ns.map Component.normal ++ [Component.rootDir]) =
          Component.rootDir :: ms.map Component.normal := by
  induction t with
  | nil =>
    intro ns hns
    refine ⟨ns.reverse, fun n hn => hns n (List.mem_reverse.mp hn), ?_⟩
    simp [cleanCore]
  | cons c rest ih =>
    intro ns hns
    have hrest : ∀ c2 ∈ rest, goodComp c2 := fun c2 hc2 => h c2 (List.mem_cons_of_mem c hc2)
    rcases h c (List.mem_cons_self c rest) with rfl | rfl | ⟨n, hn, rfl⟩
    · exact ih hrest ns hns
    · cases ns with
      | nil =>
        have hstep : cleanCore (Component.parentDir :: rest)
            (([] : List (List Char)).map Component.normal ++ [Component.rootDir])
            = cleanCore rest [Component.rootDir] := rfl
        rw [hstep]
        simpa using ih hrest [] (by simp)
      | cons m ms2 =>
        have hstep : cleanCore (Component.parentDir :: rest)
            ((m :: ms2).map Component.normal ++ [Component.rootDir])
            = cleanCore rest (ms2.map Component.normal ++ [Component.rootDir]) := rfl
        rw [hstep]
        exact ih hrest ms2 (fun n2 hn2 => hns n2 (List.mem_cons_of_mem m hn2))
    · have hstep : cleanCore (Component.normal n :: rest)
          (ns.map Component.normal ++ [Component.rootDir])
          = cleanCore rest ((n :: ns).map Component.normal ++ [Component.rootDir]) := rfl
      rw [hstep]
      refine ih hrest (n :: ns) ?_
      intro n2 hn2
      rcases List.mem_cons.mp hn2 with rfl | hn3
      · exact hn
      · exact hns n2 hn3

/-- Core-loop invariant for relative paths: over a stack of names on
a run of parent dots, classified input components keep that form. -/
theorem cleanCore_rel (t : List Component) (h : ∀ c ∈ t, goodComp c) :
    ∀ (k : Nat) (ns : List (List Char)), (∀ n ∈ ns, goodName n) →
      ∃ (k2 : Nat) (ms : List (List Char)), (∀ n ∈ ms, goodName n) ∧
        cleanCore t (ns.map Component.normal ++ List.replicate k Component.parentDir) =
          List.replicate k2 Component.parentDir ++ ms.map Component.normal := by
  induction t with
  | nil =>
    intro k ns hns
    refine ⟨k, ns.reverse, fun n hn => hns n (List.mem_reverse.mp hn), ?_⟩
    simp [cleanCore, List.reverse_append]
  | cons c rest ih =>
    intro k ns hns
    have hrest : ∀ c2 ∈ rest, goodComp c2 := fun c2 hc2 => h c2 (List.mem_cons_of_mem c hc2)
    rcases h c (List.mem_cons_self c rest) with rfl | rfl | ⟨n, hn, rfl⟩
    · exact ih hrest k ns hns
    · cases ns with
      | nil =>
        cases k with
        | zero =>
          have hstep : cleanCore (Component.parentDir :: rest)
              (([] : List (List Char)).map Component.normal ++
                List.replicate 0 Component.parentDir)
              = cleanCore rest [Component.parentDir] := rfl
          rw [hstep]
          simpa using ih hrest 1 [] (by simp)
        | succ k2 =>
          have hstep : cleanCore (Component.parentDir :: rest)
              (([] : List (List Char)).map Component.normal ++
                List.replicate (k2 + 1) Component.parentDir)
              = cleanCore rest (List.replicate (k2 + 2) Component.parentDir) := by
            simp [List.replicate_succ, cleanCore]
          rw [hstep]
          simpa using ih hrest (k2 + 2) [] (by simp)
      | cons m ms2 =>
        have hstep : cleanCore (Component.parentDir :: rest)
            ((m :: ms2).map Component.normal ++ List.replicate k Component.parentDir)
            = cleanCore rest
                (ms2.map Component.normal ++ List.replicate k Component.parentDir) := rfl
        rw [hstep]
        exact ih hrest k ms2 (fun n2 hn2 => hns n2 (List.mem_cons_of_mem m hn2))
    · have hstep : cleanCore (Component.normal n :: rest)
          (ns.map Component.normal ++ List.replicate k Component.parentDir)
          = cleanCore rest
              ((n :: ns).map Component.normal ++ List.replicate k Component.parentDir) := rfl
      rw [hstep]
      refine ih hrest k (n :: ns) ?_
      intro n2 hn2
      rcases List.mem_cons.mp hn2 with rfl | hn3
      · exact hn
      · exact hns n2 hn3

/-- A run of parent dots is pushed whole onto an all-parent stack. -/
theorem cleanCore_replicate_parent (k : Nat) :
    ∀ (j : Nat) (rest : List Component),
      cleanCore (List.replicate k Component.parentDir ++ rest)
        (List.replicate j Component.parentDir) =
      cleanCore rest (List.replicate (k + j) Component.parentDir) := by
  induction k with
  | zero => intro j rest; simp
  | succ k2 ih =>
    intro j rest
    cases j with
    | zero =>
      have hstep : cleanCore
          (List.replicate (k2 + 1) Component.parentDir ++ rest)
          (List.replicate 0 Component.parentDir)
          = cleanCore (List.replicate k2 Component.parentDir ++ rest)
              (List.replicate 1 Component.parentDir) := by
        simp [List.replicate_succ, cleanCore]
      rw [hstep, ih 1 rest]
    | succ j2 =>
      have hstep : cleanCore
          (List.replicate (k2 + 1) Component.parentDir ++ rest)
          (List.replicate (j2 + 1) Component.parentDir)
          = cleanCore (List.replicate k2 Component.parentDir ++ rest)
              (List.replicate (j2 + 2) Component.parentDir) := by
        simp [List.replicate_succ, cleanCore]
      rw [hstep, ih (j2 + 2) rest]
      have harith : k2 + 1 + (j2 + 1) = k2 + (j2 + 2) := by omega
      rw [harith]

/-- Unfolding the empty-output fallback of `cleanComponents`. -/
theorem cleanComponents_eq (comps R : List Component)
    (h : cleanCore comps [] = R) (hne : R ≠ []) :
    cleanComponents comps = R := by
  unfold cleanComponents
  rw [h]
  cases R with
  | nil => exact absurd rfl hne
  | cons a t => rfl

/-- The empty-output case of `cleanComponents`. -/
theorem cleanComponents_eq_dot (comps : List Component)
    (h : cleanCore comps [] = []) :
    cleanComponents comps = [Component.curDir] := by
  unfold cleanComponents
  rw [h]

/-- Rendering normal components yields their names. -/
theorem map_compSeg_normals (ns : List (List Char)) :
    (ns.map Component.normal).map compSeg = ns := by
  rw [List.map_map]
  have h : compSeg ∘ Component.normal = id := funext fun n => rfl
  rw [h, List.map_id]

/-- Rendering an absolute shape. -/
theorem renderComponents_abs (ns : List (List Char)) :
    renderComponents (Component.rootDir :: ns.map Component.normal)
      = '/' :: List.intercalate ['/'] ns := by
  have h : renderComponents (Component.rootDir :: ns.map Component.normal)
      = '/' :: List.intercalate ['/'] ((ns.map Component.normal).map compSeg) := rfl
  rw [h, map_compSeg_normals]

/-- Rendering a relative shape. -/
theorem renderComponents_rel (k : Nat) (ns : List (List Char)) :
    renderComponents (List.replicate k Component.parentDir ++ ns.map Component.normal)
      = List.intercalate ['/'] (List.replicate k ['.', '.'] ++ ns) := by
  cases k with
  | zero =>
    cases ns with
    | nil => rfl
    | cons p ps =>
      have h : renderComponents (List.replicate 0 Component.parentDir ++
          (p :: ps).map Component.normal)
          = List.intercalate ['/'] (((p :: ps).map Component.normal).map compSeg) := rfl
      rw [h, map_compSeg_normals]
      rfl
  | succ k2 =>
    have h : renderComponents (List.replicate (k2 + 1) Component.parentDir ++
        ns.map Component.normal)
        = List.intercalate ['/'] ((List.replicate (k2 + 1) Component.parentDir ++
            ns.map Component.normal).map compSeg) := rfl
    rw [h, List.map_append, List.map_replicate, map_compSeg_normals]
    rfl

/-- Splitting a list that starts with the separator. -/
theorem splitOn_cons_sep (sep : Char) (l : List Char) :
    (sep :: l).splitOn sep = [] :: l.splitOn sep := by
  simp [List.splitOn, List.splitOnP_cons]

/-- Filtering non-empty pieces is the identity. -/
theorem filter_ne_nil_of_all (pieces : List (List Char)) (h : ∀ p ∈ pieces, p ≠ []) :
    pieces.filter (fun x => x ≠ []) = pieces :=
  List.filter_eq_self.mpr (fun p hp => by simpa using h p hp)

/-- Well-formed names classify back to normal components. -/
theorem map_segToComp_normals (ns : List (List Char)) (h : ∀ n ∈ ns, goodName n) :
    ns.map segToComp = ns.map Component.normal := by
  apply List.map_congr_left
  intro n hn
  obtain ⟨-, h2, h3, -⟩ := h n hn
  simp [segToComp, h2, h3]

/-- Filtering dot components out of a dot-free list is the identity. -/
theorem filter_ne_curdir_of_all (cs : List Component)
    (h : ∀ c ∈ cs, c ≠ Component.curDir) :
    cs.filter (fun c => c ≠ Component.curDir) = cs :=
  List.filter_eq_self.mpr (fun c hc => by simpa using h c hc)

/-- The head of a rendered piece list starts with the head of its
first piece. -/
theorem head?_intercalate (a : Char) (t : List Char) (ps : List (List Char)) :
    (List.intercalate ['/'] ((a :: t) :: ps)).head? = some a := by
  cases ps with
  | nil => simp [List.intercalate]
  | cons q qs =>
    rw [List.intercalate, List.intersperse_cons_cons, List.flatten_cons]
    rfl

/-- Parsing the rendered absolute shape recovers it. -/
theorem parse_render_abs (ns : List (List Char)) (hns : ∀ n ∈ ns, goodName n) :
    parseComponents ('/' :: List.intercalate ['/'] ns)
      = Component.rootDir :: ns.map Component.normal := by
  cases ns with
  | nil => decide
  | cons p ps =>
    have hnosep : ∀ l ∈ p :: ps, '/' ∉ l := fun l hl => (hns l hl).2.2.2
    have hsplit : List.splitOn '/' (List.intercalate ['/'] (p :: ps)) = p :: ps :=
      List.splitOn_intercalate (p :: ps) '/' hnosep (by simp)
    have hfil : ((('/' :: List.intercalate ['/'] (p :: ps)).splitOn '/').filter
        (fun x => x ≠ [])) = p :: ps := by
      rw [splitOn_cons_sep, hsplit, List.filter_cons]
      simp [List.filter_eq_self]
      exact ⟨(hns p (List.mem_cons_self p ps)).1,
        fun a ha => (hns a (List.mem_cons_of_mem p ha)).1⟩
    have hnormals : ((p :: ps).map segToComp).filter (fun c => c ≠ Component.curDir)
        = (p :: ps).map Component.normal := by
      rw [map_segToComp_normals (p :: ps) hns]
      refine filter_ne_curdir_of_all _ ?_
      intro c hc
      obtain ⟨n, -, rfl⟩ := List.mem_map.mp hc
      simp
    simp only [parseComponents, List.head?_cons, hfil, hnormals]
    simp

/-- Parsing the rendered relative shape recovers it. -/
theorem parse_render_rel (k : Nat) (ns : List (List Char)) (hne : k ≠ 0 ∨ ns ≠ [])
    (hns : ∀ n ∈ ns, goodName n) :
    parseComponents (List.intercalate ['/'] (List.replicate k ['.', '.'] ++ ns))
      = List.replicate k Component.parentDir ++ ns.map Component.normal := by
  have hpn : ∀ l ∈ List.replicate k ['.', '.'] ++ ns, l ≠ [] := by
    intro l hl
    rcases List.mem_append.mp hl with h1 | h1
    · rw [List.eq_of_mem_replicate h1]
      simp
    · exact (hns l h1).1
  have hnosep : ∀ l ∈ List.replicate k ['.', '.'] ++ ns, '/' ∉ l := by
    intro l hl
    rcases List.mem_append.mp hl with h1 | h1
    · rw [List.eq_of_mem_replicate h1]
      simp
    · exact (hns l h1).2.2.2
  have hnonempty : List.replicate k ['.', '.'] ++ ns ≠ [] := by
    intro h0
    rw [List.append_eq_nil] at h0
    rcases hne with h1 | h1
    · exact h1 (by simpa using congrArg List.length h0.1)
    · exact h1 h0.2
  have hsplit : List.splitOn '/'
      (List.intercalate ['/'] (List.replicate k ['.', '.'] ++ ns))
      = List.replicate k ['.', '.'] ++ ns :=
    List.splitOn_intercalate _ '/' hnosep hnonempty
  have hfil : ((List.intercalate ['/'] (List.replicate k ['.', '.'] ++ ns)).splitOn
      '/').filter (fun x => x ≠ [])
      = List.replicate k ['.', '.'] ++ ns := by
    rw [hsplit]
    exact filter_ne_nil_of_all _ hpn
  have hhead : ¬ (List.intercalate ['/']
      (List.replicate k ['.', '.'] ++ ns)).head? = some '/' := by
    cases k with
    | zero =>
      cases ns with
      | nil => simp at hnonempty
      | cons n t =>
        obtain ⟨h1, -, -, h4⟩ := hns n (List.mem_cons_self n t)
        rcases hn : n with _ | ⟨a, s⟩
        · exact absurd hn h1
        · have ha : a ≠ '/' := by
            intro h0
            exact h4 (by rw [hn, h0]; exact List.mem_cons_self _ _)
          rw [show (List.replicate 0 ['.', '.'] ++ (a :: s) :: t)
              = (a :: s) :: t from rfl, head?_intercalate]
          simp [ha]
    | succ k2 =>
      rw [show List.replicate (k2 + 1) ['.', '.'] ++ ns
          = ('.' :: ['.']) :: (List.replicate k2 ['.', '.'] ++ ns) from rfl,
        head?_intercalate]
      simp
  simp only [parseComponents, hfil, if_neg hhead]
  cases k with
  | zero =>
    cases ns with
    | nil => simp at hnonempty
    | cons n t =>
      obtain ⟨-, h2, h3, -⟩ := hns n (List.mem_cons_self n t)
      have hn : segToComp n = Component.normal n := by simp [segToComp, h2, h3]
      have ht : (t.map segToComp).filter (fun c => c ≠ Component.curDir)
          = t.map Component.normal := by
        rw [map_segToComp_normals t (fun a ha => hns a (List.mem_cons_of_mem n ha))]
        refine filter_ne_curdir_of_all _ ?_
        intro c hc
        obtain ⟨m, -, rfl⟩ := List.mem_map.mp hc
        simp
      simp [hn]
      simpa using ht
  | succ k2 =>
    have hdots : segToComp ['.', '.'] = Component.parentDir := by decide
    have hrest : ((List.replicate k2 ['.', '.'] ++ ns).map segToComp).filter
        (fun c => c ≠ Component.curDir)
        = List.replicate k2 Component.parentDir ++ ns.map Component.normal := by
      rw [List.map_append, List.map_replicate, hdots,
        map_segToComp_normals ns hns]
      refine filter_ne_curdir_of_all _ ?_
      intro c hc
      rcases List.mem_append.mp hc with h1 | h1
      · rw [List.eq_of_mem_replicate h1]
        simp
      · obtain ⟨m, -, rfl⟩ := List.mem_map.mp h1
        simp
    rw [show List.replicate (k2 + 1) ['.', '.'] ++ ns
        = ['.', '.'] :: (List.replicate k2 ['.', '.'] ++ ns) from rfl]
    simp only [hdots, hrest]
    simp [List.replicate_succ]

/-- Parsing a rendered clean shape recovers it exactly. -/
theorem parse_render (f : List Component) (hf : CleanShape f) :
    parseComponents (renderComponents f) = f := by
  cases hf with
  | dot => decide
  | abs ns h => rw [renderComponents_abs, parse_render_abs ns h]
  | rel k ns hne h => rw [renderComponents_rel, parse_render_rel k ns hne h]

/-- Every cleaned parse result has a clean shape. -/
theorem cleanShape_cleanComponents (s : List Char) :
    CleanShape (cleanComponents (parseComponents s)) := by
  rcases parse_shape s with ⟨t, hps, ht⟩ | hall
  · obtain ⟨ms, hms, hcc⟩ := cleanCore_abs t ht [] (by simp)
    have h0 : cleanCore (Component.rootDir :: t) []
        = cleanCore t [Component.rootDir] := rfl
    have h1 : cleanCore (parseComponents s) []
        = Component.rootDir :: ms.map Component.normal := by
      rw [hps, h0]
      simpa using hcc
    rw [cleanComponents_eq _ _ h1 (by simp)]
    exact CleanShape.abs ms hms
  · obtain ⟨k2, ms, hms, hcc⟩ := cleanCore_rel (parseComponents s) hall 0 [] (by simp)
    have h1 : cleanCore (parseComponents s) []
        = List.replicate k2 Component.parentDir ++ ms.map Component.normal := by
      simpa using hcc
    by_cases hemp : k2 = 0 ∧ ms = []
    · obtain ⟨rfl, rfl⟩ := hemp
      rw [cleanComponents_eq_dot _ (by simpa using h1)]
      exact CleanShape.dot
    · have hne2 : List.replicate k2 Component.parentDir ++ ms.map Component.normal ≠ [] := by
        intro h0
        rw [List.append_eq_nil] at h0
        exact hemp ⟨by simpa using congrArg List.length h0.1, by simpa using h0.2⟩
      rw [cleanComponents_eq _ _ h1 hne2]
      exact CleanShape.rel k2 ms (not_and_or.mp hemp) hms

/-- Cleaning is the identity on clean shapes. -/
theorem cleanComponents_shape_fixed (f : List Component) (hf : CleanShape f) :
    cleanComponents f = f := by
  cases hf with
  | dot => decide
  | abs ns h =>
    have h0 : cleanCore (Component.rootDir :: ns.map Component.normal) []
        = cleanCore (ns.map Component.normal) [Component.rootDir] := rfl
    refine cleanComponents_eq _ _ ?_ (by simp)
    rw [h0, cleanCore_normals]
    rfl
  | rel k ns hne h =>
    refine cleanComponents_eq _ _ ?_ ?_
    · have h1 := cleanCore_replicate_parent k 0 (ns.map Component.normal)
      simpa [cleanCore_normals, List.reverse_replicate] using h1
    · intro h0
      rw [List.append_eq_nil] at h0
      rcases hne with h1 | h1
      · exact h1 (by simpa using congrArg List.length h0.1)
      · exact h1 (by simpa using h0.2)

/-- Claim C7: the Normalize step (`path.clean()`) is idempotent on
every input path: applying it twice yields the same text as applying
it once. -/
theorem C7_clean_idempotent (s : List Char) : clean (clean s) = clean s := by
  unfold clean
  rw [parse_render _ (cleanShape_cleanComponents s),
    cleanComponents_shape_fixed _ (cleanShape_cleanComponents s)]

end Here
